import Mathlib

/-
Verification of the LVRHookUniswapV4 pool-reserve reconstruction scripts.

Embedding conventions:
* Python `Decimal` arithmetic (used at precision 78/200 purely as a stand-in for
  exact arithmetic) is modelled as exact real arithmetic over ℝ; all the
  integer-valued data (ticks, liquidityNet, sqrtPriceX96) stays in ℤ/ℕ.
* The tick snapshot dictionary (string tick keys mapping to records with a
  "liquidityNet" field, with the reserved "__"-prefixed keys already filtered
  out) is modelled as an association list `List (ℤ × ℤ)` of
  (tick, liquidityNet) pairs; `lookupNet` mirrors the `str(t) in dict` /
  `dict[str(t)]["liquidityNet"]` accesses.
* Python exceptions (`raise ValueError` in `get_sqrt_ratio_at_tick`,
  propagated through `pool_balances_at_block`) are modelled with
  `Except String`.
* keccak256 is treated as an opaque 256-bit hash: the slot-derivation
  functions are parametrised by an arbitrary function `List ℕ → ℕ` on byte
  sequences, and `encode_packed(['bytes32','bytes32'], ..)` is byte-sequence
  concatenation.
-/

/-! ### Constants (pool_balance.py lines 87-90, tick_bitmap.py line 13) -/

def MIN_TICK : ℤ := -887272
def MAX_TICK : ℤ := 887272
def SPACING : ℤ := 10

/-! ### TickMath: get_sqrt_ratio_at_tick (pool_balance.py lines 92-96) -/

/-- The exact value `1.0001 ^ (tick / 2)` that
`Decimal("1.0001")**(Decimal(tick) / Decimal(2))` approximates. -/
noncomputable def sqrt_ratio_of_tick (tick : ℤ) : ℝ :=
  (1.0001 : ℝ) ^ ((tick : ℝ) / 2)

/-- `get_sqrt_ratio_at_tick` from pool_balance.py (identical copy in
pool_value.py): raises ValueError outside [MIN_TICK, MAX_TICK], otherwise
returns `1.0001 ** (tick / 2)`. -/
noncomputable def get_sqrt_ratio_at_tick (tick : ℤ) : Except String ℝ :=
  if MIN_TICK ≤ tick ∧ tick ≤ MAX_TICK then
    Except.ok (sqrt_ratio_of_tick tick)
  else
    Except.error "Tick is out of bounds"

/-! ### Range-amount formula (pool_balance.py lines 98-125) -/

/-- `get_amounts_for_liquidity_in_range` from pool_balance.py (identical copy
in pool_value.py). Argument order matches the source:
(current, lower bound, upper bound, liquidity). -/
noncomputable def get_amounts_for_liquidity_in_range
    (sqrt_price_current sqrt_price_lower_bound sqrt_price_upper_bound liquidity : ℝ) :
    ℝ × ℝ :=
  if liquidity ≤ 0 then (0, 0)
  else
    let sp_low := min sqrt_price_lower_bound sqrt_price_upper_bound
    let sp_high := max sqrt_price_lower_bound sqrt_price_upper_bound
    if sqrt_price_current < sp_low then
      (liquidity * (1 / sp_low - 1 / sp_high), 0)
    else if sqrt_price_current ≥ sp_high then
      (0, liquidity * (sp_high - sp_low))
    else
      (liquidity * (1 / sqrt_price_current - 1 / sp_high),
       liquidity * (sqrt_price_current - sp_low))

/-! ### The liquidity sweep (pool_balances_at_block, pool_balance.py lines 127-211;
identical copy in pool_value.py lines 51-103) -/

/-- The snapshot for one block: (tick, liquidityNet) pairs, i.e. the
tick-snapshot dictionary minus the reserved "__"-prefixed keys. -/
abbrev Snapshot := List (ℤ × ℤ)

/-- `str(t) in dict` / `dict[str(t)]["liquidityNet"]`: first matching entry. -/
def lookupNet : Snapshot → ℤ → Option ℤ
  | [], _ => none
  | (t, n) :: rest, q => if q = t then some n else lookupNet rest q

/-- `sorted(list(set([MIN_TICK, MAX_TICK] + initialized_ticks_int)))`:
the ascending duplicate-free list of segment boundaries. -/
def boundariesOf (snap : Snapshot) : List ℤ :=
  List.insertionSort (· ≤ ·) ((MIN_TICK :: MAX_TICK :: snap.map Prod.fst).dedup)

/-- The `for i in range(len(all_segment_boundaries) - 1)` loop of
`pool_balances_at_block`, carrying (running liquidity, total0, total1).
Processing the boundary pair (lower, upper): skip zero-width pairs, add
liquidityNet recorded at `lower` (if any) to the running liquidity, then if
the running liquidity is positive evaluate both tick ratios and accumulate
the range amounts. -/
noncomputable def sweepSegments (snap : Snapshot) (sqrtP : ℝ) :
    List ℤ → ℤ → ℝ → ℝ → Except String (ℤ × ℝ × ℝ)
  | lower :: upper :: rest, running, total0, total1 =>
    if lower ≥ upper then
      sweepSegments snap sqrtP (upper :: rest) running total0 total1
    else
      let running' : ℤ :=
        match lookupNet snap lower with
        | some net => running + net
        | none => running
      if 0 < running' then
        match get_sqrt_ratio_at_tick lower with
        | Except.error e => Except.error e
        | Except.ok sl =>
          match get_sqrt_ratio_at_tick upper with
          | Except.error e => Except.error e
          | Except.ok su =>
            let a := get_amounts_for_liquidity_in_range sqrtP sl su (running' : ℝ)
            sweepSegments snap sqrtP (upper :: rest) running' (total0 + a.1) (total1 + a.2)
      else
        sweepSegments snap sqrtP (upper :: rest) running' total0 total1
  | _, running, total0, total1 => Except.ok (running, total0, total1)

/-- `pool_balances_at_block(tick_snapshot_dict, current_sqrtPX96_int,
slot0_liquidity_int)`: sweep all segments left to right starting from
running liquidity 0, then floor both accumulated totals
(`to_integral_value(rounding=ROUND_FLOOR)`). The `slot0_liquidity_int`
argument is accepted but (as in the source) never used in the computation. -/
noncomputable def pool_balances_at_block
    (tick_snapshot : Snapshot) (current_sqrtPX96_int : ℤ)
    (slot0_liquidity_int : ℤ) : Except String (ℤ × ℤ) :=
  match sweepSegments tick_snapshot ((current_sqrtPX96_int : ℝ) / 2 ^ 96)
      (boundariesOf tick_snapshot) 0 0 0 with
  | Except.ok (_, t0, t1) => Except.ok (⌊t0⌋, ⌊t1⌋)
  | Except.error e => Except.error e

/-! ### Specification-side closed form for the sweep -/

/-- liquidityNet recorded at a boundary tick (0 when the tick is not in the
snapshot). -/
def boundaryNet (snap : Snapshot) (t : ℤ) : ℤ :=
  (lookupNet snap t).getD 0

/-- Sum of liquidityNet over a list of boundary ticks. -/
def netSum (snap : Snapshot) (l : List ℤ) : ℤ :=
  (l.map (boundaryNet snap)).sum

/-- The amounts a single segment [lower, upper) contributes when the running
liquidity for that segment is `L`: nothing when `L ≤ 0`, else the
range-amount formula at the two tick ratios. -/
noncomputable def segContrib (sqrtP : ℝ) (L : ℤ)
    (lower upper : ℤ) : ℝ × ℝ :=
  if 0 < L then
    get_amounts_for_liquidity_in_range sqrtP
      (sqrt_ratio_of_tick lower) (sqrt_ratio_of_tick upper) (L : ℝ)
  else (0, 0)

/-- Closed form of one accumulated total: summing over the consecutive
boundary pairs (bs[i], bs[i+1]), where the running liquidity for segment i is
the start value plus the cumulative liquidityNet of the boundaries
bs[0], ..., bs[i] (each applied exactly once, at its appearance as a lower
bound). -/
noncomputable def segSum (snap : Snapshot) (g : ℤ → ℤ → ℤ → ℝ)
    (L0 : ℤ) (bs : List ℤ) : ℝ :=
  ∑ i ∈ Finset.range (bs.length - 1),
    g (L0 + netSum snap (bs.take (i + 1))) (bs.getD i 0) (bs.getD (i + 1) 0)

/-! ### C1: the range-amount formula -/

/-- C1: for every liquidity > 0, order-normalized bounds 0 < sqrtLow ≤
sqrtHigh and current square-root price sqrtCurrent > 0, the range-amount
function returns exactly `(liquidity * (1/sqrtLow - 1/sqrtHigh), 0)` below
the range, `(0, liquidity * (sqrtHigh - sqrtLow))` at or above the range,
and `(liquidity * (1/sqrtCurrent - 1/sqrtHigh), liquidity * (sqrtCurrent -
sqrtLow))` inside the range. -/
theorem range_amount_formula_cases (cur low high L : ℝ)
    (hL : 0 < L) (hlow : 0 < low) (hcur : 0 < cur) (hle : low ≤ high) :
    (cur < low →
      get_amounts_for_liquidity_in_range cur low high L =
        (L * (1 / low - 1 / high), 0)) ∧
    (high ≤ cur →
      get_amounts_for_liquidity_in_range cur low high L =
        (0, L * (high - low))) ∧
    (low ≤ cur → cur < high →
      get_amounts_for_liquidity_in_range cur low high L =
        (L * (1 / cur - 1 / high), L * (cur - low))) := by
  unfold get_amounts_for_liquidity_in_range
  rw [if_neg (not_le.mpr hL)]
  simp only [min_eq_left hle, max_eq_right hle]
  refine ⟨fun h => ?_, fun h => ?_, fun h1 h2 => ?_⟩
  · rw [if_pos h]
  · rw [if_neg (not_lt.mpr (hle.trans h)), if_pos h]
  · rw [if_neg (not_lt.mpr h1), if_neg (not_le.mpr h2)]

/-- Witness for C1 at the concrete input cur = 2, low = 1, high = 2, L = 1
(the at-or-above-range branch). -/
theorem range_amount_formula_cases_witness :
    get_amounts_for_liquidity_in_range 2 1 2 1 = (0, 1 * ((2 : ℝ) - 1)) :=
  (range_amount_formula_cases 2 1 2 1 one_pos one_pos two_pos one_le_two).2.1
    le_rfl

/-! ### C6: domain of get_sqrt_ratio_at_tick -/

/-- C6: `get_sqrt_ratio_at_tick tick` fails exactly when tick is outside the
closed range [-887272, 887272], and inside that range it returns
`1.0001 ^ (tick / 2)` without error. -/
theorem sqrt_ratio_at_tick_domain (t : ℤ) :
    ((∃ r, get_sqrt_ratio_at_tick t = Except.ok r) ↔
      (-887272 ≤ t ∧ t ≤ 887272)) ∧
    (-887272 ≤ t → t ≤ 887272 →
      get_sqrt_ratio_at_tick t = Except.ok ((1.0001 : ℝ) ^ ((t : ℝ) / 2))) := by
  unfold get_sqrt_ratio_at_tick MIN_TICK MAX_TICK
  by_cases h : (-887272 : ℤ) ≤ t ∧ t ≤ 887272
  · rw [if_pos h]
    exact ⟨⟨fun _ => h, fun _ => ⟨_, rfl⟩⟩, fun _ _ => rfl⟩
  · rw [if_neg h]
    refine ⟨⟨fun ⟨r, hr⟩ => absurd hr (by simp), fun hc => absurd hc h⟩,
      fun h1 h2 => absurd ⟨h1, h2⟩ h⟩

/-- Witness for C6: out-of-bounds at tick 900000 and in-bounds at tick 0. -/
theorem sqrt_ratio_at_tick_domain_witness :
    ((∃ r, get_sqrt_ratio_at_tick 900000 = Except.ok r) ↔
      (-887272 ≤ (900000 : ℤ) ∧ (900000 : ℤ) ≤ 887272)) ∧
    get_sqrt_ratio_at_tick 0 =
      Except.ok ((1.0001 : ℝ) ^ (((0 : ℤ) : ℝ) / 2)) :=
  ⟨(sqrt_ratio_at_tick_domain 900000).1,
   (sqrt_ratio_at_tick_domain 0).2 (by decide) (by decide)⟩

/-! ### C8: strict monotonicity of get_sqrt_ratio_at_tick -/

/-- C8: the tick-to-square-root-price function is strictly increasing over
[MIN_TICK, MAX_TICK]: for t1 < t2 both in range, the values it returns
satisfy `sqrtRatioAtTick t1 < sqrtRatioAtTick t2`. -/
theorem sqrt_ratio_at_tick_strictMono (t1 t2 : ℤ)
    (h1 : -887272 ≤ t1) (h12 : t1 < t2) (h2 : t2 ≤ 887272)
    (r1 r2 : ℝ)
    (e1 : get_sqrt_ratio_at_tick t1 = Except.ok r1)
    (e2 : get_sqrt_ratio_at_tick t2 = Except.ok r2) : r1 < r2 := by
  unfold get_sqrt_ratio_at_tick MIN_TICK MAX_TICK at e1 e2
  rw [if_pos ⟨h1, le_of_lt (lt_of_lt_of_le h12 h2)⟩] at e1
  rw [if_pos ⟨le_trans h1 (le_of_lt h12), h2⟩] at e2
  injection e1 with e1'
  injection e2 with e2'
  rw [← e1', ← e2']
  unfold sqrt_ratio_of_tick
  rw [Real.rpow_lt_rpow_left_iff (by norm_num)]
  rw [div_lt_div_iff_of_pos_right two_pos]
  exact_mod_cast h12

/-- Witness for C8 at ticks 0 < 1. -/
theorem sqrt_ratio_at_tick_strictMono_witness :
    sqrt_ratio_of_tick 0 < sqrt_ratio_of_tick 1 := by
  have e0 : get_sqrt_ratio_at_tick 0 = Except.ok (sqrt_ratio_of_tick 0) := by
    unfold get_sqrt_ratio_at_tick; rw [if_pos (by decide)]
  have e1 : get_sqrt_ratio_at_tick 1 = Except.ok (sqrt_ratio_of_tick 1) := by
    unfold get_sqrt_ratio_at_tick; rw [if_pos (by decide)]
  exact sqrt_ratio_at_tick_strictMono 0 1 (by decide) (by decide) (by decide)
    _ _ e0 e1

/-! ### Structure of the boundary list -/

lemma boundariesOf_sorted_lt (snap : Snapshot) :
    (boundariesOf snap).Sorted (· < ·) := by
  have hs : (boundariesOf snap).Sorted (· ≤ ·) :=
    List.sorted_insertionSort _ _
  have hn : (boundariesOf snap).Nodup :=
    (List.perm_insertionSort _ _).nodup_iff.mpr (List.nodup_dedup _)
  exact hs.lt_of_le hn

lemma mem_boundariesOf {snap : Snapshot} {b : ℤ} :
    b ∈ boundariesOf snap ↔
      b = MIN_TICK ∨ b = MAX_TICK ∨ b ∈ snap.map Prod.fst := by
  unfold boundariesOf
  rw [(List.perm_insertionSort _ _).mem_iff, List.mem_dedup]
  simp

/-! ### Decomposition lemmas for the closed form -/

lemma netSum_nil (snap : Snapshot) : netSum snap [] = 0 := rfl

lemma netSum_cons (snap : Snapshot) (b : ℤ) (l : List ℤ) :
    netSum snap (b :: l) = boundaryNet snap b + netSum snap l := by
  simp [netSum]

lemma segSum_nil (snap : Snapshot) (g : ℤ → ℤ → ℤ → ℝ) (L0 : ℤ) :
    segSum snap g L0 [] = 0 := by
  simp [segSum]

lemma segSum_single (snap : Snapshot) (g : ℤ → ℤ → ℤ → ℝ) (L0 b : ℤ) :
    segSum snap g L0 [b] = 0 := by
  simp [segSum]

lemma segSum_cons₂ (snap : Snapshot) (g : ℤ → ℤ → ℤ → ℝ)
    (L0 b1 b2 : ℤ) (rest : List ℤ) :
    segSum snap g L0 (b1 :: b2 :: rest) =
      g (L0 + boundaryNet snap b1) b1 b2 +
        segSum snap g (L0 + boundaryNet snap b1) (b2 :: rest) := by
  unfold segSum
  have hlen : (b1 :: b2 :: rest).length - 1 = ((b2 :: rest).length - 1) + 1 := by
    simp
  rw [hlen, Finset.sum_range_succ']
  rw [add_comm]
  congr 1
  · simp [netSum_cons, netSum_nil]
  · refine Finset.sum_congr rfl fun k _ => ?_
    simp only [List.take_succ_cons, netSum_cons, List.getD_cons_succ]
    rw [add_assoc]

/-! ### The sweep computes cumulative-sum segment contributions -/

lemma get_sqrt_ratio_at_tick_ok {t : ℤ}
    (h1 : MIN_TICK ≤ t) (h2 : t ≤ MAX_TICK) :
    get_sqrt_ratio_at_tick t = Except.ok (sqrt_ratio_of_tick t) := by
  unfold get_sqrt_ratio_at_tick
  rw [if_pos ⟨h1, h2⟩]

lemma sweepSegments_eq (snap : Snapshot) (p : ℝ) :
    ∀ (bs : List ℤ), bs.Sorted (· < ·) →
      (∀ b ∈ bs, MIN_TICK ≤ b ∧ b ≤ MAX_TICK) →
      ∀ (L0 : ℤ) (t0 t1 : ℝ), ∃ Lf,
        sweepSegments snap p bs L0 t0 t1 =
          Except.ok (Lf,
            t0 + segSum snap (fun L lo hi => (segContrib p L lo hi).1) L0 bs,
            t1 + segSum snap (fun L lo hi => (segContrib p L lo hi).2) L0 bs) := by
  intro bs
  induction bs with
  | nil =>
    intro _ _ L0 t0 t1
    exact ⟨L0, by simp [sweepSegments, segSum_nil]⟩
  | cons b1 tl ih =>
    cases tl with
    | nil =>
      intro _ _ L0 t0 t1
      exact ⟨L0, by simp [sweepSegments, segSum_single]⟩
    | cons b2 rest =>
      intro hsort hrange L0 t0 t1
      have hb12 : b1 < b2 := (List.sorted_cons.mp hsort).1 b2 (by simp)
      have hsort' : (b2 :: rest).Sorted (· < ·) := (List.sorted_cons.mp hsort).2
      have hrange' : ∀ b ∈ b2 :: rest, MIN_TICK ≤ b ∧ b ≤ MAX_TICK :=
        fun b hb => hrange b (List.mem_cons_of_mem _ hb)
      have hr1 := hrange b1 (by simp)
      have hr2 := hrange b2 (by simp)
      have hrun : (match lookupNet snap b1 with
          | some net => L0 + net
          | none => L0) = L0 + boundaryNet snap b1 := by
        cases h : lookupNet snap b1 <;> simp [boundaryNet, h]
      rw [sweepSegments, if_neg (not_le.mpr hb12)]
      simp only [hrun]
      by_cases hpos : 0 < L0 + boundaryNet snap b1
      · rw [if_pos hpos, get_sqrt_ratio_at_tick_ok hr1.1 hr1.2,
          get_sqrt_ratio_at_tick_ok hr2.1 hr2.2]
        simp only []
        obtain ⟨Lf, hLf⟩ := ih hsort' hrange' (L0 + boundaryNet snap b1)
          (t0 + (get_amounts_for_liquidity_in_range p (sqrt_ratio_of_tick b1)
            (sqrt_ratio_of_tick b2) ((L0 + boundaryNet snap b1 : ℤ) : ℝ)).1)
          (t1 + (get_amounts_for_liquidity_in_range p (sqrt_ratio_of_tick b1)
            (sqrt_ratio_of_tick b2) ((L0 + boundaryNet snap b1 : ℤ) : ℝ)).2)
        refine ⟨Lf, ?_⟩
        rw [hLf]
        rw [segSum_cons₂, segSum_cons₂]
        have hc : segContrib p (L0 + boundaryNet snap b1) b1 b2 =
            get_amounts_for_liquidity_in_range p (sqrt_ratio_of_tick b1)
              (sqrt_ratio_of_tick b2) ((L0 + boundaryNet snap b1 : ℤ) : ℝ) := by
          unfold segContrib
          rw [if_pos hpos]
        rw [hc, add_assoc t0, add_assoc t1]
      · rw [if_neg hpos]
        obtain ⟨Lf, hLf⟩ := ih hsort' hrange' (L0 + boundaryNet snap b1) t0 t1
        refine ⟨Lf, ?_⟩
        rw [hLf]
        rw [segSum_cons₂, segSum_cons₂]
        have hc : segContrib p (L0 + boundaryNet snap b1) b1 b2 = (0, 0) := by
          unfold segContrib
          rw [if_neg hpos]
        rw [hc]
        simp

lemma pool_balances_at_block_eq (snap : Snapshot)
    (hrange : ∀ pr ∈ snap, MIN_TICK ≤ pr.1 ∧ pr.1 ≤ MAX_TICK)
    (sqrtPX96 slotL : ℤ) :
    pool_balances_at_block snap sqrtPX96 slotL =
      Except.ok
        (⌊segSum snap (fun L lo hi =>
            (segContrib ((sqrtPX96 : ℝ) / 2 ^ 96) L lo hi).1) 0
            (boundariesOf snap)⌋,
         ⌊segSum snap (fun L lo hi =>
            (segContrib ((sqrtPX96 : ℝ) / 2 ^ 96) L lo hi).2) 0
            (boundariesOf snap)⌋) := by
  have hb : ∀ b ∈ boundariesOf snap, MIN_TICK ≤ b ∧ b ≤ MAX_TICK := by
    intro b hme
    rcases mem_boundariesOf.mp hme with h | h | h
    · subst h; exact ⟨le_refl _, by decide⟩
    · subst h; exact ⟨by decide, le_refl _⟩
    · rcases List.mem_map.mp h with ⟨pr, hpr, rfl⟩
      exact hrange pr hpr
  obtain ⟨Lf, hLf⟩ := sweepSegments_eq snap ((sqrtPX96 : ℝ) / 2 ^ 96)
    (boundariesOf snap) (boundariesOf_sorted_lt snap) hb 0 0 0
  unfold pool_balances_at_block
  rw [hLf]
  simp

/-! ### C2: the sweep applies cumulative liquidityNet once per boundary -/

/-- C2: the sweep processes the ascending duplicate-free boundary list
(MIN_TICK, MAX_TICK and all initialized ticks) pairwise; the running
liquidity used for the segment (bs[i], bs[i+1]) is exactly the prefix sum of
the liquidityNet recorded at bs[0], ..., bs[i] — each boundary's delta
applied exactly once, at its appearance as a lower bound, never re-applied
for its appearance as the previous segment's upper bound — and a segment
whose running liquidity is ≤ 0 contributes nothing to either total. -/
theorem sweep_cumulative_liquidity (snap : Snapshot) (sqrtPX96 slotL : ℤ)
    (hrange : ∀ pr ∈ snap, MIN_TICK ≤ pr.1 ∧ pr.1 ≤ MAX_TICK) :
    (boundariesOf snap).Sorted (· < ·) ∧
    (∀ b, b ∈ boundariesOf snap ↔
        b = MIN_TICK ∨ b = MAX_TICK ∨ b ∈ snap.map Prod.fst) ∧
    (∀ (L : ℤ) (lo hi : ℤ), L ≤ 0 →
        segContrib ((sqrtPX96 : ℝ) / 2 ^ 96) L lo hi = (0, 0)) ∧
    pool_balances_at_block snap sqrtPX96 slotL =
      Except.ok
        (⌊segSum snap (fun L lo hi =>
            (segContrib ((sqrtPX96 : ℝ) / 2 ^ 96) L lo hi).1) 0
            (boundariesOf snap)⌋,
         ⌊segSum snap (fun L lo hi =>
            (segContrib ((sqrtPX96 : ℝ) / 2 ^ 96) L lo hi).2) 0
            (boundariesOf snap)⌋) := by
  refine ⟨boundariesOf_sorted_lt snap, fun b => mem_boundariesOf,
    fun L lo hi hL => ?_, pool_balances_at_block_eq snap hrange sqrtPX96 slotL⟩
  unfold segContrib
  rw [if_neg (not_lt.mpr hL)]

/-- Witness for C2 at the one-tick snapshot tick 0 ↦ liquidityNet 5. -/
theorem sweep_cumulative_liquidity_witness :
    pool_balances_at_block [((0 : ℤ), (5 : ℤ))] 0 0 =
      Except.ok
        (⌊segSum [((0 : ℤ), (5 : ℤ))] (fun L lo hi =>
            (segContrib (((0 : ℤ) : ℝ) / 2 ^ 96) L lo hi).1) 0
            (boundariesOf [((0 : ℤ), (5 : ℤ))])⌋,
         ⌊segSum [((0 : ℤ), (5 : ℤ))] (fun L lo hi =>
            (segContrib (((0 : ℤ) : ℝ) / 2 ^ 96) L lo hi).2) 0
            (boundariesOf [((0 : ℤ), (5 : ℤ))])⌋) :=
  (sweep_cumulative_liquidity [((0 : ℤ), (5 : ℤ))] 0 0 (by decide)).2.2.2

/-! ### C9: empty snapshot -/

lemma pool_balances_at_block_nil (p sl : ℤ) :
    pool_balances_at_block [] p sl = Except.ok (0, 0) := by
  rw [pool_balances_at_block_eq [] (by simp) p sl]
  have hb : boundariesOf ([] : Snapshot) = [MIN_TICK, MAX_TICK] := by decide
  rw [hb, segSum_cons₂, segSum_cons₂, segSum_single, segSum_single]
  have h0 : boundaryNet [] MIN_TICK = 0 := rfl
  rw [h0]
  have hc : segContrib ((p : ℝ) / 2 ^ 96) (0 + 0) MIN_TICK MAX_TICK = (0, 0) := by
    unfold segContrib
    rw [if_neg (by norm_num)]
  rw [hc]
  norm_num

/-- C9: a snapshot with zero initialized ticks yields (0, 0) for every
current square-root price and every recorded active-liquidity value. -/
theorem empty_snapshot_zero_reserves (p sl : ℤ) :
    pool_balances_at_block [] p sl = Except.ok (0, 0) :=
  pool_balances_at_block_nil p sl

/-! ### C10: the recorded active liquidity is ignored -/

/-- C10: for any two recorded active-liquidity values L1, L2,
`pool_balances_at_block` returns identical results — the sweep depends only
on the tick map's cumulative liquidityNet values and the current price. -/
theorem sweep_ignores_recorded_liquidity (snap : Snapshot)
    (sqrtPX96 L1 L2 : ℤ) :
    pool_balances_at_block snap sqrtPX96 L1 =
      pool_balances_at_block snap sqrtPX96 L2 := rfl

/-! ### C7: non-negativity and flooring of the returned reserves -/

lemma get_amounts_nonneg (cur low high L : ℝ)
    (hlow : 0 < low) (hhigh : 0 < high) :
    0 ≤ (get_amounts_for_liquidity_in_range cur low high L).1 ∧
    0 ≤ (get_amounts_for_liquidity_in_range cur low high L).2 := by
  unfold get_amounts_for_liquidity_in_range
  by_cases hL : L ≤ 0
  · rw [if_pos hL]
    simp
  · rw [if_neg hL]
    push_neg at hL
    have h1 : 0 < min low high := lt_min hlow hhigh
    have h2 : min low high ≤ max low high := min_le_max
    by_cases hc1 : cur < min low high
    · rw [if_pos hc1]
      have hd := one_div_le_one_div_of_le h1 h2
      exact ⟨mul_nonneg hL.le (by linarith), le_refl 0⟩
    · rw [if_neg hc1]
      by_cases hc2 : cur ≥ max low high
      · rw [if_pos hc2]
        exact ⟨le_refl 0, mul_nonneg hL.le (by linarith)⟩
      · rw [if_neg hc2]
        push_neg at hc1 hc2
        have hcur : 0 < cur := lt_of_lt_of_le h1 hc1
        have hd := one_div_le_one_div_of_le hcur hc2.le
        exact ⟨mul_nonneg hL.le (by linarith), mul_nonneg hL.le (by linarith)⟩

lemma get_sqrt_ratio_at_tick_pos {t : ℤ} {r : ℝ}
    (h : get_sqrt_ratio_at_tick t = Except.ok r) : 0 < r := by
  unfold get_sqrt_ratio_at_tick at h
  split_ifs at h
  injection h with h'
  rw [← h']
  exact Real.rpow_pos_of_pos (by norm_num) _

lemma sweepSegments_totals_mono (snap : Snapshot) (p : ℝ) :
    ∀ (bs : List ℤ) (L0 : ℤ) (t0 t1 : ℝ) (Lf : ℤ) (s0 s1 : ℝ),
      sweepSegments snap p bs L0 t0 t1 = Except.ok (Lf, s0, s1) →
      t0 ≤ s0 ∧ t1 ≤ s1 := by
  intro bs
  induction bs with
  | nil =>
    intro L0 t0 t1 Lf s0 s1 h
    simp only [sweepSegments, Except.ok.injEq, Prod.mk.injEq] at h
    obtain ⟨-, h0, h1⟩ := h
    exact ⟨h0.le, h1.le⟩
  | cons b1 tl ih =>
    cases tl with
    | nil =>
      intro L0 t0 t1 Lf s0 s1 h
      simp only [sweepSegments, Except.ok.injEq, Prod.mk.injEq] at h
      obtain ⟨-, h0, h1⟩ := h
      exact ⟨h0.le, h1.le⟩
    | cons b2 rest =>
      intro L0 t0 t1 Lf s0 s1 h
      rw [sweepSegments] at h
      by_cases hg : b1 ≥ b2
      · rw [if_pos hg] at h
        exact ih L0 t0 t1 Lf s0 s1 h
      · have hrun : (match lookupNet snap b1 with
            | some net => L0 + net
            | none => L0) = L0 + boundaryNet snap b1 := by
          cases hlk : lookupNet snap b1 <;> simp [boundaryNet, hlk]
        rw [if_neg hg] at h
        simp only [hrun] at h
        by_cases hpos : 0 < L0 + boundaryNet snap b1
        · rw [if_pos hpos] at h
          cases e1 : get_sqrt_ratio_at_tick b1 with
          | error e =>
            simp only [e1] at h
            exact Except.noConfusion h
          | ok sl =>
            simp only [e1] at h
            cases e2 : get_sqrt_ratio_at_tick b2 with
            | error e =>
              simp only [e2] at h
              exact Except.noConfusion h
            | ok su =>
              simp only [e2] at h
              have hnn := get_amounts_nonneg p sl su
                ((L0 + boundaryNet snap b1 : ℤ) : ℝ)
                (get_sqrt_ratio_at_tick_pos e1) (get_sqrt_ratio_at_tick_pos e2)
              obtain ⟨m0, m1⟩ := ih _ _ _ _ _ _ h
              exact ⟨by linarith [hnn.1], by linarith [hnn.2]⟩
        · rw [if_neg hpos] at h
          exact ih _ _ _ _ _ _ h

/-- C7: whenever `pool_balances_at_block` returns a result, it is a pair of
non-negative integers, each obtained by flooring (truncating toward negative
infinity, never rounding to nearest) the exact accumulated total for that
token: the totals t0, t1 are the ones the segment sweep itself accumulates
(pinned uniquely by the `sweepSegments ... = Except.ok (Lf, t0, t1)`
equation), they are non-negative, and the returned integers are exactly
their floors. -/
theorem reserves_nonneg_floored (snap : Snapshot) (sqrtPX96 slotL : ℤ)
    (a0 a1 : ℤ)
    (h : pool_balances_at_block snap sqrtPX96 slotL = Except.ok (a0, a1)) :
    0 ≤ a0 ∧ 0 ≤ a1 ∧
    ∃ (Lf : ℤ) (t0 t1 : ℝ),
      sweepSegments snap ((sqrtPX96 : ℝ) / 2 ^ 96) (boundariesOf snap) 0 0 0 =
        Except.ok (Lf, t0, t1) ∧
      0 ≤ t0 ∧ 0 ≤ t1 ∧ a0 = ⌊t0⌋ ∧ a1 = ⌊t1⌋ := by
  unfold pool_balances_at_block at h
  cases hs : sweepSegments snap ((sqrtPX96 : ℝ) / 2 ^ 96)
      (boundariesOf snap) 0 0 0 with
  | error e =>
    rw [hs] at h
    exact Except.noConfusion h
  | ok r =>
    obtain ⟨Lf, t0, t1⟩ := r
    rw [hs] at h
    simp only [Except.ok.injEq, Prod.mk.injEq] at h
    obtain ⟨h0, h1⟩ := h
    obtain ⟨m0, m1⟩ := sweepSegments_totals_mono snap ((sqrtPX96 : ℝ) / 2 ^ 96)
      (boundariesOf snap) 0 0 0 Lf t0 t1 hs
    refine ⟨h0 ▸ Int.floor_nonneg.mpr m0, h1 ▸ Int.floor_nonneg.mpr m1,
      Lf, t0, t1, rfl, m0, m1, h0.symm, h1.symm⟩

/-- Witness for C7 at the empty snapshot. -/
theorem reserves_nonneg_floored_witness :
    0 ≤ (0 : ℤ) ∧ 0 ≤ (0 : ℤ) ∧
    ∃ (Lf : ℤ) (t0 t1 : ℝ),
      sweepSegments [] (((0 : ℤ) : ℝ) / 2 ^ 96) (boundariesOf []) 0 0 0 =
        Except.ok (Lf, t0, t1) ∧
      0 ≤ t0 ∧ 0 ≤ t1 ∧ (0 : ℤ) = ⌊t0⌋ ∧ (0 : ℤ) = ⌊t1⌋ :=
  reserves_nonneg_floored [] 0 0 0 0 (pool_balances_at_block_nil 0 0)

/-! ### C3: negative running liquidity does not raise -/

/-- Counterexample for C3: in the snapshot with the single initialized tick
0 ↦ liquidityNet -5, the cumulative liquidityNet prefix sum is -5 < 0 at the
boundary 0 (the first two boundaries are MIN_TICK and 0), yet
`pool_balances_at_block` returns amounts (Except.ok (0, 0)) instead of
raising an InconsistentLiquidity error. -/
theorem negative_liquidity_returns_ok_counterexample :
    netSum [((0 : ℤ), (-5 : ℤ))]
        ((boundariesOf [((0 : ℤ), (-5 : ℤ))]).take 2) < 0 ∧
    pool_balances_at_block [((0 : ℤ), (-5 : ℤ))] (2 ^ 96) 7 =
      Except.ok (0, 0) := by
  constructor
  · decide
  · rw [pool_balances_at_block_eq _ (by decide) _ _]
    have hb : boundariesOf [((0 : ℤ), (-5 : ℤ))] = [MIN_TICK, 0, MAX_TICK] := by
      decide
    rw [hb, segSum_cons₂, segSum_cons₂, segSum_cons₂, segSum_cons₂,
      segSum_single, segSum_single]
    have h1 : boundaryNet [((0 : ℤ), (-5 : ℤ))] MIN_TICK = 0 := by decide
    have h2 : boundaryNet [((0 : ℤ), (-5 : ℤ))] (0 : ℤ) = -5 := by decide
    rw [h1, h2]
    have hc1 : segContrib (((2 ^ 96 : ℤ) : ℝ) / 2 ^ 96) (0 + 0) MIN_TICK 0 =
        (0, 0) := by
      unfold segContrib
      rw [if_neg (by norm_num)]
    have hc2 : segContrib (((2 ^ 96 : ℤ) : ℝ) / 2 ^ 96) (0 + 0 + -5) 0 MAX_TICK =
        (0, 0) := by
      unfold segContrib
      rw [if_neg (by norm_num)]
    rw [hc1, hc2]
    norm_num

/-- C3 (amended): the sweep does not fail when the running liquidity goes
negative — for every snapshot whose ticks lie inside [MIN_TICK, MAX_TICK]
(negative cumulative prefix sums included) it returns accumulated amounts;
a boundary segment whose running liquidity is ≤ 0 merely contributes
nothing. -/
theorem negative_liquidity_never_raises (snap : Snapshot) (sqrtPX96 slotL : ℤ)
    (hrange : ∀ pr ∈ snap, MIN_TICK ≤ pr.1 ∧ pr.1 ≤ MAX_TICK) :
    ∃ a0 a1 : ℤ, pool_balances_at_block snap sqrtPX96 slotL =
      Except.ok (a0, a1) :=
  ⟨_, _, pool_balances_at_block_eq snap hrange sqrtPX96 slotL⟩

/-- Witness for the amended C3 at the snapshot tick -10 ↦ liquidityNet -3. -/
theorem negative_liquidity_never_raises_witness :
    ∃ a0 a1 : ℤ, pool_balances_at_block [((-10 : ℤ), (-3 : ℤ))] 5 2 =
      Except.ok (a0, a1) :=
  negative_liquidity_never_raises [((-10 : ℤ), (-3 : ℤ))] 5 2 (by decide)

/-! ### BitmapDecoder (tick_bitmap.py lines 106-117) -/

/-- `tick = (word * 256 + bit) * SPACING`. -/
def tick_of_bit (word : ℤ) (bit : ℕ) : ℤ :=
  (word * 256 + (bit : ℤ)) * SPACING

/-- The inner loop `for bit in range(256): if (bits >> bit) & 1: ...` of
tick_bitmap.py main, for one bitmap word: collect
`(word * 256 + bit) * SPACING` for every set bit, keeping only ticks in
[MIN_TICK, MAX_TICK]. -/
def ticks_of_word (word : ℤ) (bits : ℕ) : List ℤ :=
  (List.range 256).filterMap fun bit =>
    if (bits >>> bit) % 2 = 1 then
      if MIN_TICK ≤ tick_of_bit word bit ∧ tick_of_bit word bit ≤ MAX_TICK then
        some (tick_of_bit word bit)
      else none
    else none

/-- Steps 2 of tick_bitmap.py main: decode every fetched bitmap word into
tick indices and sort ascending (`initialized_ticks.sort()`). The
word-to-bits mapping (a Python dict) is modelled as an association list. -/
def initialized_ticks (bitmap : List (ℤ × ℕ)) : List ℤ :=
  List.insertionSort (· ≤ ·)
    (bitmap.flatMap fun wb => ticks_of_word wb.1 wb.2)

lemma ticks_of_word_some {w : ℤ} {bits : ℕ} {b : ℕ} {t : ℤ} :
    ((if (bits >>> b) % 2 = 1 then
        if MIN_TICK ≤ tick_of_bit w b ∧ tick_of_bit w b ≤ MAX_TICK then
          some (tick_of_bit w b)
        else none
      else none) = some t) ↔
    ((bits >>> b) % 2 = 1 ∧ t = tick_of_bit w b ∧
      MIN_TICK ≤ t ∧ t ≤ MAX_TICK) := by
  constructor
  · intro h
    split_ifs at h with h1 h2
    injection h with h'
    exact ⟨h1, h'.symm, h' ▸ h2.1, h' ▸ h2.2⟩
  · rintro ⟨h1, rfl, h3, h4⟩
    rw [if_pos h1, if_pos ⟨h3, h4⟩]

lemma mem_ticks_of_word {w : ℤ} {bits : ℕ} {t : ℤ} :
    t ∈ ticks_of_word w bits ↔
    ∃ b : ℕ, b < 256 ∧ (bits >>> b) % 2 = 1 ∧ t = tick_of_bit w b ∧
      MIN_TICK ≤ t ∧ t ≤ MAX_TICK := by
  unfold ticks_of_word
  rw [List.mem_filterMap]
  constructor
  · rintro ⟨b, hb, hsome⟩
    obtain ⟨h1, h2, h3, h4⟩ := ticks_of_word_some.mp hsome
    exact ⟨b, List.mem_range.mp hb, h1, h2, h3, h4⟩
  · rintro ⟨b, hb, h1, ht, h3, h4⟩
    exact ⟨b, List.mem_range.mpr hb, ticks_of_word_some.mpr ⟨h1, ht, h3, h4⟩⟩

lemma shift_mod_eq_testBit (bits b : ℕ) :
    ((bits >>> b) % 2 = 1) ↔ Nat.testBit bits b = true := by
  rw [Nat.testBit_to_div_mod, Nat.shiftRight_eq_div_pow]
  simp

lemma ticks_of_word_nodup (w : ℤ) (bits : ℕ) :
    (ticks_of_word w bits).Nodup := by
  unfold ticks_of_word
  refine List.Nodup.filterMap ?_ (List.nodup_range 256)
  intro a a' t ha ha'
  rw [Option.mem_def] at ha ha'
  have h1 := (ticks_of_word_some.mp ha).2.1
  have h2 := (ticks_of_word_some.mp ha').2.1
  have h3 : tick_of_bit w a = tick_of_bit w a' := h1.symm.trans h2
  unfold tick_of_bit SPACING at h3
  omega

lemma ticks_of_word_disjoint {w w' : ℤ} (hne : w ≠ w') (bits bits' : ℕ) :
    List.Disjoint (ticks_of_word w bits) (ticks_of_word w' bits') := by
  intro t ht ht'
  obtain ⟨b, hb, -, ht1, -, -⟩ := mem_ticks_of_word.mp ht
  obtain ⟨b', hb', -, ht2, -, -⟩ := mem_ticks_of_word.mp ht'
  rw [ht1] at ht2
  unfold tick_of_bit SPACING at ht2
  exact hne (by omega)

lemma initialized_ticks_pre_nodup (bitmap : List (ℤ × ℕ))
    (hkeys : (bitmap.map Prod.fst).Nodup) :
    (bitmap.flatMap fun wb => ticks_of_word wb.1 wb.2).Nodup := by
  rw [List.nodup_flatMap]
  refine ⟨fun wb _ => ticks_of_word_nodup wb.1 wb.2, ?_⟩
  have hp : bitmap.Pairwise (fun x y => x.1 ≠ y.1) := by
    rw [← List.pairwise_map (f := Prod.fst)]
    exact hkeys
  exact hp.imp fun h => ticks_of_word_disjoint h _ _

/-- C4: for a word-to-bits mapping with distinct word keys, the bitmap
decoder produces a strictly increasing (hence duplicate-free) tick sequence
whose members are exactly the ticks `(wordIndex * 256 + bitPosition) *
SPACING` over set bits, intersected with [MIN_TICK, MAX_TICK]; and the
output is the same for any two enumeration orders of the same mapping. -/
theorem bitmap_decoder_spec (bitmap : List (ℤ × ℕ))
    (hkeys : (bitmap.map Prod.fst).Nodup) :
    (initialized_ticks bitmap).Sorted (· < ·) ∧
    (∀ t : ℤ, t ∈ initialized_ticks bitmap ↔
      ∃ w bits, (w, bits) ∈ bitmap ∧
        ∃ b : ℕ, b < 256 ∧ Nat.testBit bits b = true ∧
          t = (w * 256 + (b : ℤ)) * SPACING ∧
          MIN_TICK ≤ t ∧ t ≤ MAX_TICK) ∧
    (∀ bitmap2 : List (ℤ × ℕ), bitmap.Perm bitmap2 →
      initialized_ticks bitmap = initialized_ticks bitmap2) := by
  have hnd : (initialized_ticks bitmap).Nodup :=
    (List.perm_insertionSort _ _).nodup_iff.mpr
      (initialized_ticks_pre_nodup bitmap hkeys)
  refine ⟨(List.sorted_insertionSort _ _).lt_of_le hnd, ?_, ?_⟩
  · intro t
    unfold initialized_ticks
    rw [(List.perm_insertionSort _ _).mem_iff, List.mem_flatMap]
    constructor
    · rintro ⟨⟨w, bits⟩, hwb, ht⟩
      obtain ⟨b, hb, hbit, ht1, h3, h4⟩ := mem_ticks_of_word.mp ht
      exact ⟨w, bits, hwb, b, hb, (shift_mod_eq_testBit bits b).mp hbit,
        ht1, h3, h4⟩
    · rintro ⟨w, bits, hwb, b, hb, hbit, ht1, h3, h4⟩
      exact ⟨(w, bits), hwb, mem_ticks_of_word.mpr
        ⟨b, hb, (shift_mod_eq_testBit bits b).mpr hbit, ht1, h3, h4⟩⟩
  · intro bitmap2 hperm
    unfold initialized_ticks
    refine List.eq_of_perm_of_sorted ?_ (List.sorted_insertionSort _ _)
      (List.sorted_insertionSort _ _)
    exact (List.perm_insertionSort _ _).trans
      ((List.Perm.flatMap_right _ hperm).trans
        (List.perm_insertionSort _ _).symm)

/-- Witness for C4 at the one-word bitmap 0 ↦ 5 (bits 0 and 2 set). -/
theorem bitmap_decoder_spec_witness :
    (initialized_ticks [((0 : ℤ), (5 : ℕ))]).Sorted (· < ·) :=
  (bitmap_decoder_spec [((0 : ℤ), (5 : ℕ))] (by decide)).1

/-! ### SlotAddressing (tick_bitmap.py lines 27-49) -/

/-- `n.to_bytes(k, 'big')`: the k-byte big-endian byte sequence of n,
least-significant byte last. -/
def intToBytesBE : ℕ → ℕ → List ℕ
  | 0, _ => []
  | k + 1, n => intToBytesBE k (n / 256) ++ [n % 256]

/-- `calculate_mapping_slot(key_hex, mapping_slot_index)` from
tick_bitmap.py (identical copy in add_active_liquidity.py): keccak of the
32-byte key concatenated with `mapping_slot_index.to_bytes(32, 'big')`
(`encode_packed` of two bytes32 values is plain concatenation). A key that
is not exactly 32 bytes, or an index that does not fit in 32 bytes, is
rejected by the byte-encoding layer (OverflowError / encoding error in the
source). -/
def calculate_mapping_slot (keccak : List ℕ → ℕ) (key_bytes : List ℕ)
    (mapping_slot_index : ℕ) : Option ℕ :=
  if key_bytes.length = 32 ∧ mapping_slot_index < 2 ^ 256 then
    some (keccak (key_bytes ++ intToBytesBE 32 mapping_slot_index))
  else none

/-- `calculate_nested_mapping_slot(key, mapping_base_slot_hex)` from
tick_bitmap.py: keccak of `key.to_bytes(32, 'big', signed=True)` (32-byte
big-endian two's complement, i.e. the canonical representative of
key mod 2^256) concatenated with the 32-byte base slot. -/
def calculate_nested_mapping_slot (keccak : List ℕ → ℕ) (key : ℤ)
    (base_slot_bytes : List ℕ) : Option ℕ :=
  if -(2 ^ 255) ≤ key ∧ key < 2 ^ 255 ∧ base_slot_bytes.length = 32 then
    some (keccak (intToBytesBE 32 (key % 2 ^ 256).toNat ++ base_slot_bytes))
  else none

/-- Specification-side rendering of the 32-byte big-endian encoding: byte k
holds `n / 256 ^ (31 - k) % 256`. -/
def bytes32BE (n : ℕ) : List ℕ :=
  (List.range 32).map fun k => n / 256 ^ (31 - k) % 256

/-- Specification-side rendering of the 32-byte big-endian two's-complement
encoding of a signed integer. -/
def twosComplement32 (j : ℤ) : List ℕ :=
  if 0 ≤ j then bytes32BE j.toNat else bytes32BE (2 ^ 256 - (-j).toNat)

lemma intToBytesBE_eq (k : ℕ) : ∀ n : ℕ,
    intToBytesBE k n = (List.range k).map fun j => n / 256 ^ (k - 1 - j) % 256 := by
  induction k with
  | zero => intro n; simp [intToBytesBE]
  | succ k ih =>
    intro n
    rw [intToBytesBE, ih (n / 256), List.range_succ, List.map_append]
    congr 1
    · refine List.map_congr_left fun j hj => ?_
      rw [List.mem_range] at hj
      rw [Nat.div_div_eq_div_mul]
      have h2 : k + 1 - 1 - j = (k - 1 - j) + 1 := by omega
      rw [h2, pow_succ']
    · simp

lemma intToBytesBE_32_eq_bytes32BE (n : ℕ) :
    intToBytesBE 32 n = bytes32BE n := by
  rw [intToBytesBE_eq]
  unfold bytes32BE
  norm_num

set_option maxRecDepth 8000 in
lemma emod_toNat_eq_twos (j : ℤ) (h1 : -(2 ^ 255) ≤ j) (h2 : j < 2 ^ 255) :
    intToBytesBE 32 (j % 2 ^ 256).toNat = twosComplement32 j := by
  have hpZ : (2 : ℤ) ^ 256 =
      115792089237316195423570985008687907853269984665640564039457584007913129639936 := by
    norm_num
  have hpZ5 : (2 : ℤ) ^ 255 =
      57896044618658097711785492504343953926634992332820282019728792003956564819968 := by
    norm_num
  have hpN : (2 : ℕ) ^ 256 =
      115792089237316195423570985008687907853269984665640564039457584007913129639936 := by
    norm_num
  rw [hpZ5] at h1 h2
  unfold twosComplement32
  by_cases h0 : 0 ≤ j
  · rw [if_pos h0, intToBytesBE_32_eq_bytes32BE]
    congr 1
    rw [hpZ]
    omega
  · rw [if_neg h0, intToBytesBE_32_eq_bytes32BE]
    congr 1
    rw [hpZ, hpN]
    omega

/-- C5: for every 32-byte key and base slot index below 2^256,
`calculate_mapping_slot` is the hash of the key concatenated with the
32-byte big-endian encoding of the index; for every signed key representable
in 32 bytes two's complement and every 32-byte base slot,
`calculate_nested_mapping_slot` is the hash of the 32-byte big-endian
two's-complement encoding of the key concatenated with the base slot — for
an arbitrary (opaque) 256-bit hash function. -/
theorem slot_derivation_spec (keccak : List ℕ → ℕ) :
    (∀ (key : List ℕ) (i : ℕ), key.length = 32 → i < 2 ^ 256 →
      calculate_mapping_slot keccak key i =
        some (keccak (key ++ bytes32BE i))) ∧
    (∀ (j : ℤ) (s : List ℕ), -(2 ^ 255) ≤ j → j < 2 ^ 255 → s.length = 32 →
      calculate_nested_mapping_slot keccak j s =
        some (keccak (twosComplement32 j ++ s))) := by
  constructor
  · intro key i hk hi
    unfold calculate_mapping_slot
    rw [if_pos ⟨hk, hi⟩, intToBytesBE_32_eq_bytes32BE]
  · intro j s h1 h2 hs
    unfold calculate_nested_mapping_slot
    rw [if_pos ⟨h1, h2, hs⟩, emod_toNat_eq_twos j h1 h2]

/-- Witness for C5 with the concrete hash `List.sum`, the all-zero 32-byte
key at index 6, and the nested key -1 under an all-ones 32-byte base slot. -/
theorem slot_derivation_spec_witness :
    calculate_mapping_slot List.sum (List.replicate 32 0) 6 =
      some (List.sum (List.replicate 32 0 ++ bytes32BE 6)) ∧
    calculate_nested_mapping_slot List.sum (-1) (List.replicate 32 1) =
      some (List.sum (twosComplement32 (-1) ++ List.replicate 32 1)) :=
  ⟨(slot_derivation_spec List.sum).1 (List.replicate 32 0) 6 (by decide)
      (by norm_num),
   (slot_derivation_spec List.sum).2 (-1) (List.replicate 32 1) (by norm_num)
      (by norm_num) (by decide)⟩
